import Mathlib

/-!
# Pointer-encoded small integers (`starlark/int_posix64.go`)

A shallow embedding of the 64-bit POSIX representation of the Starlark `Int`:
a single machine word that is either the address of a `*big.Int` or an address
inside a reserved region of `2^32` addresses starting at `smallints`, one per
`int32` value.

Machine words are natural numbers with explicit reduction modulo `2^64`;
`int64` values are integers with explicit two's-complement wrapping.  The
package-level variable `smallints` is passed as an explicit argument.
-/

namespace Starlark

/-! ## Machine arithmetic of a 64-bit target -/

/-- The constant `math.MinInt32`. -/
def MinInt32 : Int := -2147483648

/-- The constant `math.MaxInt32`. -/
def MaxInt32 : Int := 2147483647

/-- An integer is a value of Go type `int64`. -/
def isInt64 (z : Int) : Prop := -(2 : Int) ^ 63 ≤ z ∧ z < (2 : Int) ^ 63

instance (z : Int) : Decidable (isInt64 z) := by
  unfold isInt64; infer_instance

/-- A natural number is a value of Go type `uintptr` (a 64-bit address). -/
def isUintptr (n : Nat) : Prop := n < 2 ^ 64

instance (n : Nat) : Decidable (isUintptr n) := by
  unfold isUintptr; infer_instance

/-- Two's-complement reduction of a mathematical integer to `int64`. -/
def wrapInt64 (z : Int) : Int := (z + 2 ^ 63) % 2 ^ 64 - 2 ^ 63

/-- Go `a + b` on `int64` operands (wraps on overflow). -/
def int64Add (a b : Int) : Int := wrapInt64 (a + b)

/-- Go `a - b` on `int64` operands (wraps on overflow). -/
def int64Sub (a b : Int) : Int := wrapInt64 (a - b)

/-- Go conversion `uintptr(v)` of an `int64` value: the same 64 bits, unsigned. -/
def uintptrOfInt64 (v : Int) : Nat := (v % 2 ^ 64).toNat

/-- Go conversion `int64(u)` of a `uintptr` value: the same 64 bits, signed. -/
def int64OfUintptr (u : Nat) : Int := wrapInt64 (u : Int)

/-- Go `a + b` on `uintptr` operands (wraps modulo `2^64`). -/
def uintptrAdd (a b : Nat) : Nat := (a + b) % 2 ^ 64

/-- Go `a - b` on `uintptr` operands (wraps modulo `2^64`). -/
def uintptrSub (a b : Nat) : Nat := (a + (2 ^ 64 - b % 2 ^ 64)) % 2 ^ 64

/-! ## The representation -/

/-- The address held by a `*big.Int`; the nil pointer is address `0`. -/
abbrev BigIntPtr := Nat

/-- The Go value `nil` of type `*big.Int`. -/
def nil : BigIntPtr := 0

/-- The Go struct `starlark.Int`.  Its only field `impl` has type `intImpl`,
an `unsafe.Pointer`: a bare 64-bit machine address. -/
structure StarlarkInt where
  impl : Nat
  deriving DecidableEq, Repr

/-- The condition of the `if` statement of `Int.get`,
`ptr >= smallints && ptr < smallints+1<<32`, in `uintptr` arithmetic
(`<<` binds tighter than `+` in Go). -/
def inSmallints (smallints ptr : Nat) : Bool :=
  decide (smallints ≤ ptr) && decide (ptr < uintptrAdd smallints (1 <<< 32))

/-- The method `Int.get`: the `(small, big)` arms of the union.
`smallints` is the base address of the reserved region. -/
def get (smallints : Nat) (i : StarlarkInt) : Int × BigIntPtr :=
  let ptr : Nat := i.impl
  if inSmallints smallints ptr then
    (int64Add MinInt32 (int64OfUintptr (uintptrSub ptr smallints)), nil)
  else
    (0, i.impl)

/-- The function `makeSmallInt`.  Its precondition
`math.MinInt32 <= x && x <= math.MaxInt32` is a comment in the source and is
not tested by the body. -/
def makeSmallInt (smallints : Nat) (x : Int) : StarlarkInt :=
  ⟨uintptrAdd (uintptrOfInt64 (int64Sub x MinInt32)) smallints⟩

/-- The function `makeBigInt`: the pointer itself is stored. -/
def makeBigInt (x : BigIntPtr) : StarlarkInt := ⟨x⟩

/-! ## Reserving the region -/

/-- How the execution of a Go function ends. -/
inductive Outcome (α : Type) where
  /-- The function returned a value. -/
  | returned : α → Outcome α
  /-- The process was terminated by `log.Fatalf` with the given message. -/
  | fatal : String → Outcome α
  /-- A run-time panic (index out of range). -/
  | panicked : Outcome α
  deriving DecidableEq, Repr

/-- A Go `[]byte`: the address of its first element and its length. -/
structure ByteSlice where
  addr : Nat
  len : Nat
  deriving DecidableEq, Repr

/-- The pair `(b, err)` returned by `unix.Mmap`; `err` is `none` for a nil
error and otherwise carries the text of the error. -/
structure MmapResult where
  b : ByteSlice
  err : Option String
  deriving DecidableEq, Repr

/-- The function `reserveAddresses`.  The operating system is an argument:
`mmap len` is what `unix.Mmap(-1, 0, len, PROT_READ, MAP_PRIVATE|MAP_ANON)`
returns. -/
def reserveAddresses (mmap : Int → MmapResult) (len : Int) : Outcome Nat :=
  let r := mmap len
  match r.err with
  | some e => Outcome.fatal ("mmap: " ++ e)
  | none =>
    -- `&b[0]` panics on an empty slice
    if 0 < r.b.len then Outcome.returned r.b.addr else Outcome.panicked

/-- The initialiser of the package-level variable `smallints`. -/
def smallintsInit (mmap : Int → MmapResult) : Outcome Nat :=
  reserveAddresses mmap (1 <<< 32)

/-- Execution of `makeSmallInt` as a Go call: the body is a single `return`
of wrapping arithmetic, so the call always returns. -/
def makeSmallIntCall (smallints : Nat) (x : Int) : Outcome StarlarkInt :=
  Outcome.returned (makeSmallInt smallints x)

/-! ## The decoder as the specification words it -/

/-- The specification's `decodeSmall`, following its words: `minInt32 +
(addr - base)` if `base <= addr < base + 2^32` over unbounded integers, else
"not a small int". -/
def specDecodeSmall (base addr : Nat) : Option Int :=
  if base ≤ addr ∧ addr < base + 2 ^ 32 then
    some (MinInt32 + ((addr : Int) - (base : Int)))
  else
    none

/-- The specification's `get`, following its words: `(decoded_value, none)`
if `decodeSmall` answers, otherwise `(0, reference_to_big_int)`. -/
def specGet (base addr : Nat) : Int × BigIntPtr :=
  match specDecodeSmall base addr with
  | some v => (v, nil)
  | none => (0, addr)

/-! ## Arithmetic lemmas -/

theorem shift32 : (1 <<< 32 : Nat) = 4294967296 := by decide

/-- The offset computed by `makeSmallInt`, as a plain integer expression. -/
theorem offset_eq (x : Int) :
    (uintptrOfInt64 (int64Sub x MinInt32) : Int) = (x + 2147483648) % 18446744073709551616 := by
  unfold uintptrOfInt64 int64Sub wrapInt64 MinInt32
  omega

/-- The membership test of `get` when the region ends below the top of the
address space: the wrapping sum `smallints + 1<<32` is the true sum. -/
theorem inSmallints_iff (smallints ptr : Nat) (hbase : smallints + 2 ^ 32 < 2 ^ 64) :
    inSmallints smallints ptr = true ↔ (smallints ≤ ptr ∧ ptr < smallints + 2 ^ 32) := by
  simp only [inSmallints, uintptrAdd, shift32, Bool.and_eq_true, decide_eq_true_eq]
  omega

/-- The small arm computed by `get` for an address inside the region. -/
theorem small_arm_eq (smallints ptr : Nat) (h1 : smallints ≤ ptr)
    (h2 : ptr < smallints + 2 ^ 32) :
    int64Add MinInt32 (int64OfUintptr (uintptrSub ptr smallints)) =
      MinInt32 + ((ptr : Int) - (smallints : Int)) := by
  unfold int64Add int64OfUintptr uintptrSub wrapInt64 MinInt32
  omega

/-- Inside the region `get` takes its small branch. -/
theorem get_of_mem (smallints ptr : Nat) (hbase : smallints + 2 ^ 32 < 2 ^ 64)
    (h1 : smallints ≤ ptr) (h2 : ptr < smallints + 2 ^ 32) :
    get smallints ⟨ptr⟩ = (MinInt32 + ((ptr : Int) - (smallints : Int)), nil) := by
  have ht := (inSmallints_iff smallints ptr hbase).mpr ⟨h1, h2⟩
  simp only [get, if_pos ht, small_arm_eq smallints ptr h1 h2]

/-- Outside the region `get` takes its big branch. -/
theorem get_of_not_mem (smallints ptr : Nat) (hbase : smallints + 2 ^ 32 < 2 ^ 64)
    (h : ¬ (smallints ≤ ptr ∧ ptr < smallints + 2 ^ 32)) :
    get smallints ⟨ptr⟩ = (0, ptr) := by
  have ht : ¬ (inSmallints smallints ptr = true) :=
    fun hc => h ((inSmallints_iff smallints ptr hbase).mp hc)
  simp only [get, if_neg ht]

/-- The address computed by `makeSmallInt` for an in-range value. -/
theorem makeSmallInt_impl_eq (smallints : Nat) (x : Int) (hbase : smallints + 2 ^ 32 ≤ 2 ^ 64)
    (hlo : MinInt32 ≤ x) (hhi : x ≤ MaxInt32) :
    ((makeSmallInt smallints x).impl : Int) = (smallints : Int) + (x - MinInt32) := by
  have ho := offset_eq x
  have hm : MinInt32 = -2147483648 := rfl
  have hM : MaxInt32 = 2147483647 := rfl
  simp only [makeSmallInt, uintptrAdd]
  omega

/-! ## Round trip -/

/-- C1. Round trip: when the region ends strictly below the top of the
address space, every `x` with `MinInt32 ≤ x ≤ MaxInt32` (hence an `int64`)
satisfies `get (makeSmallInt x) = (x, nil)`; in particular at both edges. -/
theorem get_makeSmallInt_roundtrip (smallints : Nat) (hbase : smallints + 2 ^ 32 < 2 ^ 64) :
    (∀ x : Int, isInt64 x → MinInt32 ≤ x → x ≤ MaxInt32 →
        get smallints (makeSmallInt smallints x) = (x, nil)) ∧
      get smallints (makeSmallInt smallints MinInt32) = (MinInt32, nil) ∧
      get smallints (makeSmallInt smallints MaxInt32) = (MaxInt32, nil) := by
  have key : ∀ x : Int, MinInt32 ≤ x → x ≤ MaxInt32 →
      get smallints (makeSmallInt smallints x) = (x, nil) := by
    intro x hlo hhi
    have ha := makeSmallInt_impl_eq smallints x (Nat.le_of_lt hbase) hlo hhi
    have hm : MinInt32 = -2147483648 := rfl
    have hM : MaxInt32 = 2147483647 := rfl
    have h1 : smallints ≤ (makeSmallInt smallints x).impl := by omega
    have h2 : (makeSmallInt smallints x).impl < smallints + 2 ^ 32 := by omega
    have hg := get_of_mem smallints (makeSmallInt smallints x).impl hbase h1 h2
    rw [show makeSmallInt smallints x = ⟨(makeSmallInt smallints x).impl⟩ from rfl, hg, ha]
    congr 1
    omega
  exact ⟨fun x _ hlo hhi => key x hlo hhi, key MinInt32 (le_refl _) (by decide),
    key MaxInt32 (by decide) (le_refl _)⟩

/-- Witness for C1 at base address `4096`. -/
theorem get_makeSmallInt_roundtrip_witness :
    (∀ x : Int, isInt64 x → MinInt32 ≤ x → x ≤ MaxInt32 →
        get 4096 (makeSmallInt 4096 x) = (x, nil)) ∧
      get 4096 (makeSmallInt 4096 MinInt32) = (MinInt32, nil) ∧
      get 4096 (makeSmallInt 4096 MaxInt32) = (MaxInt32, nil) :=
  get_makeSmallInt_roundtrip 4096 (by decide)

/-! ## Big integers are never read as small ones -/

/-- C2. Disjointness: when the region ends strictly below the top of the
address space, a 64-bit pointer `p` whose address is outside
`[smallints, smallints + 2^32)` is returned unchanged by
`get (makeBigInt p)`, with small arm `0`, through the big branch of `get`. -/
theorem get_makeBigInt_outside (smallints : Nat) (p : BigIntPtr)
    (hbase : smallints + 2 ^ 32 < 2 ^ 64) (_hp : isUintptr p)
    (hout : ¬ (smallints ≤ p ∧ p < smallints + 2 ^ 32)) :
    get smallints (makeBigInt p) = (0, p) ∧
      inSmallints smallints (makeBigInt p).impl = false ∧
      (get smallints (makeBigInt p)).2 = p := by
  have hg : get smallints (makeBigInt p) = (0, p) :=
    get_of_not_mem smallints p hbase hout
  have ht : inSmallints smallints (makeBigInt p).impl = false := by
    rw [Bool.eq_false_iff]
    exact fun hc => hout ((inSmallints_iff smallints p hbase).mp hc)
  exact ⟨hg, ht, by rw [hg]⟩

/-- Witness for C2: base `4096`, a pointer just past the end of the region. -/
theorem get_makeBigInt_outside_witness :
    get 4096 (makeBigInt 4294971392) = (0, 4294971392) ∧
      inSmallints 4096 (makeBigInt 4294971392).impl = false ∧
      (get 4096 (makeBigInt 4294971392)).2 = 4294971392 :=
  get_makeBigInt_outside 4096 4294971392 (by decide) (by decide) (by decide)

/-! ## The encoder -/

/-- C3. Address containment: when the region fits in the address space
(`smallints + 2^32 ≤ 2^64`), the address computed by `makeSmallInt` for an
in-range `x` lies in `[smallints, smallints + 2^32)`, compared as unbounded
natural numbers. -/
theorem makeSmallInt_mem_region (smallints : Nat) (x : Int)
    (hbase : smallints + 2 ^ 32 ≤ 2 ^ 64) (_hx : isInt64 x)
    (hlo : MinInt32 ≤ x) (hhi : x ≤ MaxInt32) :
    smallints ≤ (makeSmallInt smallints x).impl ∧
      (makeSmallInt smallints x).impl < smallints + 2 ^ 32 := by
  have ha := makeSmallInt_impl_eq smallints x hbase hlo hhi
  have hm : MinInt32 = -2147483648 := rfl
  have hM : MaxInt32 = 2147483647 := rfl
  constructor <;> omega

/-- Witness for C3: the region at the very top of the address space, upper
edge of the range. -/
theorem makeSmallInt_mem_region_witness :
    18446744069414584320 ≤ (makeSmallInt 18446744069414584320 2147483647).impl ∧
      (makeSmallInt 18446744069414584320 2147483647).impl < 18446744069414584320 + 2 ^ 32 :=
  makeSmallInt_mem_region 18446744069414584320 2147483647 (by decide) (by decide)
    (by decide) (by decide)

/-- C4. Encoding formula: when the region fits in the address space, the
address of `makeSmallInt x` for in-range `x` is `B + (x - MinInt32)` over the
integers; the lower edge maps to `B`, the upper edge to `B + 4294967295` and
zero to `B + 2147483648`. -/
theorem makeSmallInt_formula (B : Nat) (hbase : B + 2 ^ 32 ≤ 2 ^ 64) :
    (∀ x : Int, isInt64 x → MinInt32 ≤ x → x ≤ MaxInt32 →
        ((makeSmallInt B x).impl : Int) = (B : Int) + (x - MinInt32)) ∧
      makeSmallInt B (-2147483648) = ⟨B⟩ ∧
      makeSmallInt B 2147483647 = ⟨B + 4294967295⟩ ∧
      makeSmallInt B 0 = ⟨B + 2147483648⟩ := by
  have hm : MinInt32 = -2147483648 := rfl
  have hM : MaxInt32 = 2147483647 := rfl
  have e1 := makeSmallInt_impl_eq B (-2147483648) hbase (by decide) (by decide)
  have e2 := makeSmallInt_impl_eq B 2147483647 hbase (by decide) (by decide)
  have e3 := makeSmallInt_impl_eq B 0 hbase (by decide) (by decide)
  have a1 : (makeSmallInt B (-2147483648)).impl = B := by omega
  have a2 : (makeSmallInt B 2147483647).impl = B + 4294967295 := by omega
  have a3 : (makeSmallInt B 0).impl = B + 2147483648 := by omega
  exact ⟨fun x _ hlo hhi => makeSmallInt_impl_eq B x hbase hlo hhi,
    congrArg StarlarkInt.mk a1, congrArg StarlarkInt.mk a2, congrArg StarlarkInt.mk a3⟩

/-- Witness for C4 at base address `4096`. -/
theorem makeSmallInt_formula_witness :
    (∀ x : Int, isInt64 x → MinInt32 ≤ x → x ≤ MaxInt32 →
        ((makeSmallInt 4096 x).impl : Int) = ((4096 : Nat) : Int) + (x - MinInt32)) ∧
      makeSmallInt 4096 (-2147483648) = ⟨4096⟩ ∧
      makeSmallInt 4096 2147483647 = ⟨4096 + 4294967295⟩ ∧
      makeSmallInt 4096 0 = ⟨4096 + 2147483648⟩ :=
  makeSmallInt_formula 4096 (by decide)

/-- The address computed by `makeSmallInt` for any integer, without wrapping
operators: the base plus the residue of `x + 2^31`, reduced once. -/
theorem makeSmallInt_impl_mod (smallints : Nat) (x : Int) :
    ((makeSmallInt smallints x).impl : Int) =
      ((x + 2147483648) % 18446744073709551616 + (smallints : Int)) % 18446744073709551616 := by
  have ho := offset_eq x
  simp only [makeSmallInt, uintptrAdd]
  omega

/-! ## The precondition of `makeSmallInt` is not tested -/

/-- C5, counterexample: at base `4096` the calls `makeSmallInt(minInt32 - 1)`
and `makeSmallInt(maxInt32 + 1)` do not signal failure; each returns a
value, with address `4095` and `4096 + 2^32`. -/
theorem makeSmallInt_boundary_not_rejected :
    makeSmallIntCall 4096 (MinInt32 - 1) = Outcome.returned ⟨4095⟩ ∧
      makeSmallIntCall 4096 (MaxInt32 + 1) = Outcome.returned ⟨4294971392⟩ ∧
      ¬ (∀ x : Int, x = MinInt32 - 1 ∨ x = MaxInt32 + 1 →
          ∀ v : StarlarkInt, makeSmallIntCall 4096 x ≠ Outcome.returned v) := by
  refine ⟨by decide, by decide, ?_⟩
  intro h
  exact h (MinInt32 - 1) (Or.inl rfl) ⟨4095⟩ (by decide)

/-- C5, amended: `makeSmallInt` performs no precondition check.  For every
base, the calls at `minInt32 - 1` and `maxInt32 + 1` return a value, whose
address is `smallints - 1` and `smallints + 2^32` modulo `2^64`. -/
theorem makeSmallInt_boundary_returns (smallints : Nat) :
    makeSmallIntCall smallints (MinInt32 - 1) =
        Outcome.returned ⟨(smallints + (2 ^ 64 - 1)) % 2 ^ 64⟩ ∧
      makeSmallIntCall smallints (MaxInt32 + 1) =
        Outcome.returned ⟨(smallints + 2 ^ 32) % 2 ^ 64⟩ := by
  have hm : MinInt32 = -2147483648 := rfl
  have hM : MaxInt32 = 2147483647 := rfl
  have e1 := makeSmallInt_impl_mod smallints (MinInt32 - 1)
  have e2 := makeSmallInt_impl_mod smallints (MaxInt32 + 1)
  have a1 : (makeSmallInt smallints (MinInt32 - 1)).impl =
      (smallints + (2 ^ 64 - 1)) % 2 ^ 64 := by omega
  have a2 : (makeSmallInt smallints (MaxInt32 + 1)).impl =
      (smallints + 2 ^ 32) % 2 ^ 64 := by omega
  exact ⟨congrArg (fun a => Outcome.returned (StarlarkInt.mk a)) a1,
    congrArg (fun a => Outcome.returned (StarlarkInt.mk a)) a2⟩

/-! ## Bijection with the region -/

/-- C6. Inverse round trip and bijection: when the region ends strictly
below the top of the address space, every address of the region is decoded by
`get` to `(v, nil)` with `v` in the `int32` range and `makeSmallInt v` that
address; `makeSmallInt` maps the `int32` range bijectively onto the words of
the region, and the small arm of `get` is its two-sided inverse there. -/
theorem makeSmallInt_bijOn (smallints : Nat) (hbase : smallints + 2 ^ 32 < 2 ^ 64) :
    (∀ addr : Nat, smallints ≤ addr → addr < smallints + 2 ^ 32 →
        ∃ v : Int, get smallints ⟨addr⟩ = (v, nil) ∧ MinInt32 ≤ v ∧ v ≤ MaxInt32 ∧
          makeSmallInt smallints v = ⟨addr⟩) ∧
      Set.BijOn (makeSmallInt smallints) (Set.Icc MinInt32 MaxInt32)
        {i | smallints ≤ i.impl ∧ i.impl < smallints + 2 ^ 32} ∧
      Set.InvOn (fun i => (get smallints i).1) (makeSmallInt smallints)
        (Set.Icc MinInt32 MaxInt32)
        {i | smallints ≤ i.impl ∧ i.impl < smallints + 2 ^ 32} := by
  have hm : MinInt32 = -2147483648 := rfl
  have hM : MaxInt32 = 2147483647 := rfl
  -- backward direction
  have back : ∀ addr : Nat, smallints ≤ addr → addr < smallints + 2 ^ 32 →
      get smallints ⟨addr⟩ = (MinInt32 + ((addr : Int) - (smallints : Int)), nil) ∧
        MinInt32 ≤ MinInt32 + ((addr : Int) - (smallints : Int)) ∧
        MinInt32 + ((addr : Int) - (smallints : Int)) ≤ MaxInt32 ∧
        makeSmallInt smallints (MinInt32 + ((addr : Int) - (smallints : Int))) = ⟨addr⟩ := by
    intro addr h1 h2
    have hlo : MinInt32 ≤ MinInt32 + ((addr : Int) - (smallints : Int)) := by omega
    have hhi : MinInt32 + ((addr : Int) - (smallints : Int)) ≤ MaxInt32 := by omega
    have ha := makeSmallInt_impl_eq smallints _ (Nat.le_of_lt hbase) hlo hhi
    have hi : (makeSmallInt smallints (MinInt32 + ((addr : Int) - (smallints : Int)))).impl
        = addr := by omega
    exact ⟨get_of_mem smallints addr hbase h1 h2, hlo, hhi, congrArg StarlarkInt.mk hi⟩
  -- forward direction
  have fwd : ∀ x : Int, MinInt32 ≤ x → x ≤ MaxInt32 →
      (smallints ≤ (makeSmallInt smallints x).impl ∧
        (makeSmallInt smallints x).impl < smallints + 2 ^ 32) ∧
      (get smallints (makeSmallInt smallints x)).1 = x := by
    intro x hlo hhi
    have ha := makeSmallInt_impl_eq smallints x (Nat.le_of_lt hbase) hlo hhi
    have h1 : smallints ≤ (makeSmallInt smallints x).impl := by omega
    have h2 : (makeSmallInt smallints x).impl < smallints + 2 ^ 32 := by omega
    have hg := get_of_mem smallints (makeSmallInt smallints x).impl hbase h1 h2
    refine ⟨⟨h1, h2⟩, ?_⟩
    rw [show makeSmallInt smallints x = ⟨(makeSmallInt smallints x).impl⟩ from rfl, hg, ha]
    show MinInt32 + ((smallints : Int) + (x - MinInt32) - (smallints : Int)) = x
    omega
  refine ⟨?_, ⟨?_, ?_, ?_⟩, ?_, ?_⟩
  · intro addr h1 h2
    exact ⟨_, back addr h1 h2⟩
  · intro x hx
    exact (fwd x hx.1 hx.2).1
  · intro x hx y hy hxy
    have ex := (fwd x hx.1 hx.2).2
    have ey := (fwd y hy.1 hy.2).2
    rw [hxy] at ex
    exact ex.symm.trans ey
  · intro i hi
    obtain ⟨_, hlo, hhi, hmk⟩ := back i.impl hi.1 hi.2
    exact ⟨_, ⟨hlo, hhi⟩, hmk⟩
  · intro x hx
    exact (fwd x hx.1 hx.2).2
  · intro i hi
    obtain ⟨hg, _, _, hmk⟩ := back i.impl hi.1 hi.2
    show makeSmallInt smallints (get smallints i).1 = i
    rw [show i = ⟨i.impl⟩ from rfl, hg]
    exact hmk

/-- Witness for C6 at base address `4096`. -/
theorem makeSmallInt_bijOn_witness :
    (∀ addr : Nat, 4096 ≤ addr → addr < 4096 + 2 ^ 32 →
        ∃ v : Int, get 4096 ⟨addr⟩ = (v, nil) ∧ MinInt32 ≤ v ∧ v ≤ MaxInt32 ∧
          makeSmallInt 4096 v = ⟨addr⟩) ∧
      Set.BijOn (makeSmallInt 4096) (Set.Icc MinInt32 MaxInt32)
        {i | 4096 ≤ i.impl ∧ i.impl < 4096 + 2 ^ 32} ∧
      Set.InvOn (fun i => (get 4096 i).1) (makeSmallInt 4096)
        (Set.Icc MinInt32 MaxInt32)
        {i | 4096 ≤ i.impl ∧ i.impl < 4096 + 2 ^ 32} :=
  makeSmallInt_bijOn 4096 (by decide)

/-! ## The decoder against its specification -/

/-- C7, counterexample: with the region at the very top of the address space
(`smallints = 2^64 - 2^32`, so `smallints + 2^32 ≤ 2^64` holds) the address
`smallints` lies in the region over unbounded integers, yet the wrapping test
of `get` fails and `get` returns the big arm instead of `(MinInt32, nil)`. -/
theorem get_disagrees_at_top :
    18446744069414584320 + 2 ^ 32 ≤ 2 ^ 64 ∧
      isUintptr 18446744069414584320 ∧
      (18446744069414584320 ≤ 18446744069414584320 ∧
        18446744069414584320 < 18446744069414584320 + 2 ^ 32) ∧
      inSmallints 18446744069414584320 18446744069414584320 = false ∧
      get 18446744069414584320 ⟨18446744069414584320⟩ = (0, 18446744069414584320) ∧
      specGet 18446744069414584320 18446744069414584320 = (MinInt32, nil) ∧
      get 18446744069414584320 ⟨18446744069414584320⟩ ≠
        specGet 18446744069414584320 18446744069414584320 := by
  refine ⟨by decide, by decide, by decide, by decide, by decide, by decide, by decide⟩

/-- C7, amended: when the region ends strictly below the top of the address
space (`smallints + 2^32 < 2^64`), for every 64-bit address `addr` the test of
`get` succeeds exactly when `smallints ≤ addr < smallints + 2^32` over
unbounded integers, which is exactly when the specified `decodeSmall`
answers; then `get` returns `MinInt32 + (addr - smallints)` with a nil
reference, otherwise the big arm `(0, addr)`; so `get` equals the specified
decoder. -/
theorem get_refines_specGet (smallints addr : Nat)
    (hbase : smallints + 2 ^ 32 < 2 ^ 64) (_haddr : isUintptr addr) :
    (inSmallints smallints addr = true ↔ (smallints ≤ addr ∧ addr < smallints + 2 ^ 32)) ∧
      (inSmallints smallints addr = true ↔ (specDecodeSmall smallints addr).isSome = true) ∧
      (inSmallints smallints addr = true →
        get smallints ⟨addr⟩ = (MinInt32 + ((addr : Int) - (smallints : Int)), nil)) ∧
      (inSmallints smallints addr = false → get smallints ⟨addr⟩ = (0, addr)) ∧
      get smallints ⟨addr⟩ = specGet smallints addr := by
  have hi := inSmallints_iff smallints addr hbase
  by_cases hmem : smallints ≤ addr ∧ addr < smallints + 2 ^ 32
  · have hg := get_of_mem smallints addr hbase hmem.1 hmem.2
    have ht : inSmallints smallints addr = true := hi.mpr hmem
    refine ⟨hi, ?_, fun _ => hg, ?_, ?_⟩
    · simp only [specDecodeSmall, if_pos hmem, ht, Option.isSome_some]
    · intro hf
      rw [ht] at hf
      exact absurd hf (by decide)
    · rw [hg]
      simp only [specGet, specDecodeSmall, if_pos hmem]
  · have hg := get_of_not_mem smallints addr hbase hmem
    have ht : inSmallints smallints addr = false := by
      rw [Bool.eq_false_iff]
      exact fun hc => hmem (hi.mp hc)
    refine ⟨hi, ?_, ?_, fun _ => hg, ?_⟩
    · simp only [specDecodeSmall, if_neg hmem, ht, Option.isSome_none]
    · intro hf
      rw [ht] at hf
      exact absurd hf (by decide)
    · rw [hg]
      simp only [specGet, specDecodeSmall, if_neg hmem]

/-- Witness for C7 (amended): base `4096`, the last address of the region. -/
theorem get_refines_specGet_witness :
    (inSmallints 4096 4294971391 = true ↔ (4096 ≤ 4294971391 ∧ 4294971391 < 4096 + 2 ^ 32)) ∧
      (inSmallints 4096 4294971391 = true ↔ (specDecodeSmall 4096 4294971391).isSome = true) ∧
      (inSmallints 4096 4294971391 = true →
        get 4096 ⟨4294971391⟩ =
          (MinInt32 + (((4294971391 : Nat) : Int) - ((4096 : Nat) : Int)), nil)) ∧
      (inSmallints 4096 4294971391 = false → get 4096 ⟨4294971391⟩ = (0, 4294971391)) ∧
      get 4096 ⟨4294971391⟩ = specGet 4096 4294971391 :=
  get_refines_specGet 4096 4294971391 (by decide) (by decide)

/-! ## Reservation -/

/-- C8. Reservation failure is fatal.  With the result of `unix.Mmap` as an
input, and a successful mapping being non-empty (so that it has a first byte),
`reserveAddresses` returns a base address exactly when `mmap` reported no
error, and that base is the address of the first byte of the mapping; when
`mmap` reports an error the run ends in `log.Fatalf` and no base address is
returned. -/
theorem reserveAddresses_returns_iff (mmap : Int → MmapResult) (len : Int)
    (hsucc : (mmap len).err = none → 0 < (mmap len).b.len) :
    (∀ base : Nat, reserveAddresses mmap len = Outcome.returned base ↔
        ((mmap len).err = none ∧ base = (mmap len).b.addr)) ∧
      (∀ e : String, (mmap len).err = some e →
        reserveAddresses mmap len = Outcome.fatal ("mmap: " ++ e) ∧
          ∀ base : Nat, reserveAddresses mmap len ≠ Outcome.returned base) ∧
      ((∃ base : Nat, reserveAddresses mmap len = Outcome.returned base) ↔
        (mmap len).err = none) := by
  have hfatal : ∀ e : String, (mmap len).err = some e →
      reserveAddresses mmap len = Outcome.fatal ("mmap: " ++ e) := by
    intro e he
    unfold reserveAddresses
    simp only [he]
  have hok : (mmap len).err = none →
      reserveAddresses mmap len = Outcome.returned (mmap len).b.addr := by
    intro hn
    have hpos : 0 < (mmap len).b.len := hsucc hn
    unfold reserveAddresses
    simp only [hn, if_pos hpos]
  have hret : ∀ base : Nat, reserveAddresses mmap len = Outcome.returned base ↔
      ((mmap len).err = none ∧ base = (mmap len).b.addr) := by
    intro base
    cases herr : (mmap len).err with
    | some e =>
      rw [hfatal e herr]
      constructor
      · intro h
        exact Outcome.noConfusion h
      · intro h
        exact Option.noConfusion h.1
    | none =>
      rw [hok herr]
      constructor
      · intro h
        exact ⟨rfl, (Outcome.returned.inj h).symm⟩
      · intro h
        rw [h.2]
  refine ⟨hret, ?_, ?_⟩
  · intro e he
    refine ⟨hfatal e he, ?_⟩
    intro base hb
    rw [hfatal e he] at hb
    exact Outcome.noConfusion hb
  · constructor
    · rintro ⟨base, hb⟩
      exact ((hret base).mp hb).1
    · intro hnone
      exact ⟨(mmap len).b.addr, (hret _).mpr ⟨hnone, rfl⟩⟩

/-- Witness for C8: an operating system that maps `2^32` bytes at address
`139637976727552` on every request. -/
theorem reserveAddresses_returns_iff_witness :
    (∀ base : Nat,
        reserveAddresses (fun _ => ⟨⟨139637976727552, 4294967296⟩, none⟩) (1 <<< 32) =
          Outcome.returned base ↔
        ((none : Option String) = none ∧ base = 139637976727552)) ∧
      (∀ e : String, (none : Option String) = some e →
        reserveAddresses (fun _ => ⟨⟨139637976727552, 4294967296⟩, none⟩) (1 <<< 32) =
            Outcome.fatal ("mmap: " ++ e) ∧
          ∀ base : Nat,
            reserveAddresses (fun _ => ⟨⟨139637976727552, 4294967296⟩, none⟩) (1 <<< 32) ≠
              Outcome.returned base) ∧
      ((∃ base : Nat,
          reserveAddresses (fun _ => ⟨⟨139637976727552, 4294967296⟩, none⟩) (1 <<< 32) =
            Outcome.returned base) ↔
        (none : Option String) = none) :=
  reserveAddresses_returns_iff (fun _ => ⟨⟨139637976727552, 4294967296⟩, none⟩) (1 <<< 32)
    (fun _ => by decide)

/-! ## Out-of-range arguments of `makeSmallInt` -/

/-- C10. Out-of-range encodings never masquerade as small integers: when
the region ends strictly below the top of the address space, for every
`int64` value `x` (wrapping included) the address of `makeSmallInt x` lies in
`[smallints, smallints + 2^32)` exactly when `MinInt32 ≤ x ≤ MaxInt32`; for
out-of-range `x` the test of `get` fails and `get` returns the big arm with
small component `0`; `MaxInt32 + 1` is sent to `smallints + 2^32` and
`MinInt32 - 1` to `smallints - 1` modulo `2^64`. -/
theorem makeSmallInt_mem_region_iff (smallints : Nat) (x : Int)
    (hbase : smallints + 2 ^ 32 < 2 ^ 64) (hx : isInt64 x) :
    ((smallints ≤ (makeSmallInt smallints x).impl ∧
        (makeSmallInt smallints x).impl < smallints + 2 ^ 32) ↔
      (MinInt32 ≤ x ∧ x ≤ MaxInt32)) ∧
      (¬ (MinInt32 ≤ x ∧ x ≤ MaxInt32) →
        inSmallints smallints (makeSmallInt smallints x).impl = false ∧
          get smallints (makeSmallInt smallints x) = (0, (makeSmallInt smallints x).impl) ∧
          (get smallints (makeSmallInt smallints x)).1 = 0) ∧
      makeSmallInt smallints (MaxInt32 + 1) = ⟨smallints + 2 ^ 32⟩ ∧
      makeSmallInt smallints (MinInt32 - 1) = ⟨(smallints + (2 ^ 64 - 1)) % 2 ^ 64⟩ := by
  have hm : MinInt32 = -2147483648 := rfl
  have hM : MaxInt32 = 2147483647 := rfl
  have hx1 : -(9223372036854775808 : Int) ≤ x := by
    have h := hx.1
    norm_num at h
    exact h
  have hx2 : x < (9223372036854775808 : Int) := by
    have h := hx.2
    norm_num at h
    exact h
  have e := makeSmallInt_impl_mod smallints x
  have hiff : (smallints ≤ (makeSmallInt smallints x).impl ∧
        (makeSmallInt smallints x).impl < smallints + 2 ^ 32) ↔
      (MinInt32 ≤ x ∧ x ≤ MaxInt32) := by
    omega
  have e1 := makeSmallInt_impl_mod smallints (MaxInt32 + 1)
  have e2 := makeSmallInt_impl_mod smallints (MinInt32 - 1)
  have a1 : (makeSmallInt smallints (MaxInt32 + 1)).impl = smallints + 2 ^ 32 := by omega
  have a2 : (makeSmallInt smallints (MinInt32 - 1)).impl =
      (smallints + (2 ^ 64 - 1)) % 2 ^ 64 := by omega
  refine ⟨hiff, ?_, congrArg StarlarkInt.mk a1, congrArg StarlarkInt.mk a2⟩
  intro hout
  have hnot : ¬ (smallints ≤ (makeSmallInt smallints x).impl ∧
      (makeSmallInt smallints x).impl < smallints + 2 ^ 32) := fun hc => hout (hiff.mp hc)
  have hg : get smallints (makeSmallInt smallints x) =
      (0, (makeSmallInt smallints x).impl) :=
    get_of_not_mem smallints (makeSmallInt smallints x).impl hbase hnot
  refine ⟨?_, hg, by rw [hg]⟩
  rw [Bool.eq_false_iff]
  exact fun hc => hnot ((inSmallints_iff smallints _ hbase).mp hc)

/-- Witness for C10: base `4096` and the largest `int64`, whose offset
`x - MinInt32` overflows and wraps. -/
theorem makeSmallInt_mem_region_iff_witness :
    ((4096 ≤ (makeSmallInt 4096 9223372036854775807).impl ∧
        (makeSmallInt 4096 9223372036854775807).impl < 4096 + 2 ^ 32) ↔
      (MinInt32 ≤ 9223372036854775807 ∧ (9223372036854775807 : Int) ≤ MaxInt32)) ∧
      (¬ (MinInt32 ≤ 9223372036854775807 ∧ (9223372036854775807 : Int) ≤ MaxInt32) →
        inSmallints 4096 (makeSmallInt 4096 9223372036854775807).impl = false ∧
          get 4096 (makeSmallInt 4096 9223372036854775807) =
            (0, (makeSmallInt 4096 9223372036854775807).impl) ∧
          (get 4096 (makeSmallInt 4096 9223372036854775807)).1 = 0) ∧
      makeSmallInt 4096 (MaxInt32 + 1) = ⟨4096 + 2 ^ 32⟩ ∧
      makeSmallInt 4096 (MinInt32 - 1) = ⟨(4096 + (2 ^ 64 - 1)) % 2 ^ 64⟩ :=
  makeSmallInt_mem_region_iff 4096 9223372036854775807 (by decide) (by decide)

/-! ## Range of the decoder -/

/-- The test of `get` bounds the address: wherever the base lies, a word that
passes the test is at most `2^32 - 1` above the base, and the base plus `2^32`
does not wrap. -/
theorem inSmallints_bounds (smallints ptr : Nat) (ht : inSmallints smallints ptr = true) :
    smallints ≤ ptr ∧ ptr < smallints + 2 ^ 32 ∧ smallints + 2 ^ 32 < 2 ^ 64 := by
  simp only [inSmallints, uintptrAdd, shift32, Bool.and_eq_true, decide_eq_true_eq] at ht
  omega

/-- C11. Range invariant of the decoder: for every 64-bit base address, with
no assumption on where the region lies, and every 64-bit word `w`, the small
component of `get w` lies in `[MinInt32, MaxInt32]`; on the small branch the
difference `ptr - smallints` is below `2^32`, so its conversion to `int64`
keeps its value and the sum with `MinInt32` is an `int64` without wrapping;
on the big branch the small component is `0` and the word is returned. -/
theorem get_small_arm_range (smallints w : Nat)
    (_hbase : isUintptr smallints) (_hw : isUintptr w) :
    (MinInt32 ≤ (get smallints ⟨w⟩).1 ∧ (get smallints ⟨w⟩).1 ≤ MaxInt32) ∧
      (inSmallints smallints w = true →
        uintptrSub w smallints < 2 ^ 32 ∧
          int64OfUintptr (uintptrSub w smallints) = ((uintptrSub w smallints : Nat) : Int) ∧
          isInt64 (MinInt32 + int64OfUintptr (uintptrSub w smallints)) ∧
          (get smallints ⟨w⟩).1 = MinInt32 + ((uintptrSub w smallints : Nat) : Int)) ∧
      (inSmallints smallints w = false → get smallints ⟨w⟩ = (0, w)) := by
  have hm : MinInt32 = -2147483648 := rfl
  have hM : MaxInt32 = 2147483647 := rfl
  have hbig : inSmallints smallints w = false → get smallints ⟨w⟩ = (0, w) := by
    intro hf
    simp only [get, hf, Bool.false_eq_true, if_false]
  have hsmall : inSmallints smallints w = true →
      uintptrSub w smallints < 2 ^ 32 ∧
        int64OfUintptr (uintptrSub w smallints) = ((uintptrSub w smallints : Nat) : Int) ∧
        isInt64 (MinInt32 + int64OfUintptr (uintptrSub w smallints)) ∧
        (get smallints ⟨w⟩).1 = MinInt32 + ((uintptrSub w smallints : Nat) : Int) := by
    intro ht
    obtain ⟨h1, h2, h3⟩ := inSmallints_bounds smallints w ht
    have hd : uintptrSub w smallints = w - smallints := by
      unfold uintptrSub
      omega
    have hlt : uintptrSub w smallints < 2 ^ 32 := by omega
    have hconv : int64OfUintptr (uintptrSub w smallints) =
        ((uintptrSub w smallints : Nat) : Int) := by
      unfold int64OfUintptr wrapInt64
      omega
    have hsum : isInt64 (MinInt32 + int64OfUintptr (uintptrSub w smallints)) := by
      rw [hconv]
      unfold isInt64
      constructor
      · norm_num
        omega
      · norm_num
        omega
    have hget : (get smallints ⟨w⟩).1 =
        MinInt32 + ((uintptrSub w smallints : Nat) : Int) := by
      simp only [get, ht, if_true, int64Add, hconv]
      unfold wrapInt64
      omega
    exact ⟨hlt, hconv, hsum, hget⟩
  refine ⟨?_, hsmall, hbig⟩
  cases ht : inSmallints smallints w with
  | true =>
    obtain ⟨hlt, _, _, hget⟩ := hsmall ht
    rw [hget]
    constructor <;> omega
  | false =>
    rw [hbig ht]
    exact ⟨show MinInt32 ≤ (0 : Int) by decide, show (0 : Int) ≤ MaxInt32 by decide⟩

/-- Witness for C11: base `4096` and the last word of the region, decoded to
`MaxInt32`. -/
theorem get_small_arm_range_witness :
    (MinInt32 ≤ (get 4096 ⟨4294971391⟩).1 ∧ (get 4096 ⟨4294971391⟩).1 ≤ MaxInt32) ∧
      (inSmallints 4096 4294971391 = true →
        uintptrSub 4294971391 4096 < 2 ^ 32 ∧
          int64OfUintptr (uintptrSub 4294971391 4096) =
            ((uintptrSub 4294971391 4096 : Nat) : Int) ∧
          isInt64 (MinInt32 + int64OfUintptr (uintptrSub 4294971391 4096)) ∧
          (get 4096 ⟨4294971391⟩).1 = MinInt32 + ((uintptrSub 4294971391 4096 : Nat) : Int)) ∧
      (inSmallints 4096 4294971391 = false → get 4096 ⟨4294971391⟩ = (0, 4294971391)) :=
  get_small_arm_range 4096 4294971391 (by decide) (by decide)

/-! ## The zero value -/

/-- C12. The zero-valued `Int` reads as the integer `0` and `get` is not
injective: when `0 < smallints` and the region ends strictly below the top of
the address space, `get` of the null word returns `(0, nil)`, the same pair
as `get (makeSmallInt 0)`, although `makeSmallInt 0` is the word
`smallints + 2^31`, which differs from the null word. -/
theorem get_zero_value (smallints : Nat) (hpos : 0 < smallints)
    (hbase : smallints + 2 ^ 32 < 2 ^ 64) :
    get smallints ⟨0⟩ = (0, nil) ∧
      get smallints (makeSmallInt smallints 0) = (0, nil) ∧
      get smallints ⟨0⟩ = get smallints (makeSmallInt smallints 0) ∧
      makeSmallInt smallints 0 = ⟨smallints + 2 ^ 31⟩ ∧
      makeSmallInt smallints 0 ≠ ⟨0⟩ ∧
      ¬ Function.Injective (get smallints) := by
  have hm : MinInt32 = -2147483648 := rfl
  have hnull : get smallints ⟨0⟩ = (0, nil) :=
    get_of_not_mem smallints 0 hbase (by omega)
  have ha := makeSmallInt_impl_eq smallints 0 (Nat.le_of_lt hbase) (by decide) (by decide)
  have hi : (makeSmallInt smallints 0).impl = smallints + 2 ^ 31 := by omega
  have hmk : makeSmallInt smallints 0 = ⟨smallints + 2 ^ 31⟩ := congrArg StarlarkInt.mk hi
  have hg := get_of_mem smallints (smallints + 2 ^ 31) hbase (by omega) (by omega)
  have hzero : get smallints (makeSmallInt smallints 0) = (0, nil) := by
    rw [hmk, hg]
    congr 1
    omega
  have hne : makeSmallInt smallints 0 ≠ ⟨0⟩ := by
    intro h
    have h0 : (makeSmallInt smallints 0).impl = 0 := congrArg StarlarkInt.impl h
    omega
  refine ⟨hnull, hzero, hnull.trans hzero.symm, hmk, hne, ?_⟩
  intro hinj
  exact hne (hinj (hzero.trans hnull.symm))

/-- Witness for C12 at base address `4096`. -/
theorem get_zero_value_witness :
    get 4096 ⟨0⟩ = (0, nil) ∧
      get 4096 (makeSmallInt 4096 0) = (0, nil) ∧
      get 4096 ⟨0⟩ = get 4096 (makeSmallInt 4096 0) ∧
      makeSmallInt 4096 0 = ⟨4096 + 2 ^ 31⟩ ∧
      makeSmallInt 4096 0 ≠ ⟨0⟩ ∧
      ¬ Function.Injective (get 4096) :=
  get_zero_value 4096 (by decide) (by decide)

end Starlark
